import Mathlib

/-!
Verification development for the Open Vote Network contract
(crates voting, off-chain, util of the repository).

Embedding conventions.

The secp256k1 group is cyclic of prime order q with generator G, so it is
isomorphic (via the discrete logarithm of the fixed generator) to the
additive group ZMod q; scalars are likewise ZMod q.  We embed curve points
in this discrete-log representation: point addition is addition in ZMod q,
the scalar multiple of a point P by k is k * P, the generator is 1 and the
identity is 0.  Every group-level computation of the source (ZKP equations,
reconstructed keys, the tally loop) is translated verbatim under this
isomorphism.

SHA-256 and the hash-to-scalar function are external primitives (sha2 and
k256 crates); on-chain code only ever compares their outputs, so the model
takes them as function parameters (sha : Bytes -> Bytes for SHA-256,
hashS : Point -> Scalar for hash_to_scalar applied to the encoding of a
point sum, exactly the way every call site of the source uses it).
-/

namespace OVN

/-- Order of the secp256k1 group (the prime n of the spec). -/
def q : ℕ := 115792089237316195423570985008687907852837564279074904382605163141518161494337

instance : NeZero q := ⟨by decide⟩

/-- Curve points in discrete-log representation. -/
abbrev Point := ZMod q

/-- Scalars modulo the group order. -/
abbrev Scalar := ZMod q

/-- ProjectivePoint::GENERATOR in discrete-log representation. -/
def GENERATOR : Point := 1

/-- Byte strings (each entry is meant to be a byte value below 256). -/
abbrev Bytes := List ℕ

/-- Big-endian byte encoding of n on w bytes. -/
def beBytes (w : ℕ) (n : ℕ) : Bytes :=
  (List.range w).map (fun i => n / 256 ^ (w - 1 - i) % 256)

/-- Big-endian value of a byte string. -/
def beVal (v : Bytes) : ℕ :=
  v.foldl (fun acc b => acc * 256 + b) 0

/-- Scalar::to_bytes of the k256 crate: 32-byte big-endian encoding. -/
def scalar_to_bytes (s : Scalar) : Bytes := beBytes 32 s.val

/-- Translation of util::convert_vec_to_scalar.  It wraps
SecretKey::from_be_bytes of the k256 crate, which accepts exactly the
32-byte big-endian encodings of the scalars in the open interval (0, q):
the length must be 32 and the value must be nonzero (a SecretKey is a
NonZeroScalar) and below the group order.  unwrap_abort on failure is
modelled by Option. -/
def convert_vec_to_scalar (v : Bytes) : Option Scalar :=
  if v.length = 32 ∧ v.all (fun b => b < 256) ∧ 0 < beVal v ∧ beVal v < q then
    some ((beVal v : Scalar))
  else
    none

/-- Modelled from the spec: the 33-byte compressed SEC1 point encoding of
the k256 crate (GroupEncoding::to_bytes), whose implementation is external
to src/.  Per the spec it is a canonical 33-byte encoding: a parity tag
byte (2 or 3) followed by 32 bytes identifying the point, with the identity
encoded as 33 zero bytes.  In the discrete-log representation we realize it
as the tag followed by the big-endian bytes of the discrete log, which has
exactly the structural properties the spec states (canonical, 33 bytes,
identity special-cased). -/
def point_to_bytes (P : Point) : Bytes :=
  if P = 0 then List.replicate 33 0
  else (2 + P.val % 2) :: beBytes 32 P.val

/-- Modelled from the spec: util::convert_vec_to_point, wrapping
PublicKey::from_sec1_bytes of the k256 crate (external to src/).  Decoding
fails unless the bytes are the canonical 33-byte encoding of a
non-identity point (a PublicKey is never the identity), matching the
spec: decoding fails if bytes are not a valid encoding or decode to the
identity. -/
def convert_vec_to_point (v : Bytes) : Option Point :=
  match v with
  | [] => none
  | t :: rest =>
    if rest.length = 32 ∧ rest.all (fun b => b < 256) ∧
        0 < beVal rest ∧ beVal rest < q ∧ t = 2 + beVal rest % 2 then
      some ((beVal rest : Point))
    else
      none

/-- SchnorrProof of the util crate, at point/scalar granularity. -/
structure SchnorrProof where
  g_w : Point
  r : Scalar
  deriving DecidableEq

/-- OneInTwoZKP of the util crate, at point/scalar granularity:
four scalars (r1, r2, d1, d2) and six points (x, y, a1, b1, a2, b2). -/
structure OneInTwoZKP where
  r1 : Scalar
  r2 : Scalar
  d1 : Scalar
  d2 : Scalar
  x : Point
  y : Point
  a1 : Point
  b1 : Point
  a2 : Point
  b2 : Point
  deriving DecidableEq

/-- Translation of crypto::verify_schnorr_zkp of the voting crate.
hashS stands for hash_to_scalar composed with the point encoding, the only
way the source ever uses it. -/
def verify_schnorr_zkp (hashS : Point → Scalar) (g_x : Point) (schnorr : SchnorrProof) : Bool :=
  let g_w := schnorr.g_w
  let r := schnorr.r
  let z := hashS (GENERATOR + g_w + g_x)
  let g_r := GENERATOR * r
  let g_x_z := g_x * z
  decide (g_x_z + g_r = g_w)

/-- Translation of off_chain::create_schnorr_zkp; the random scalar w is a
parameter. -/
def create_schnorr_zkp (hashS : Point → Scalar) (g_x : Point) (x : Scalar) (w : Scalar) :
    SchnorrProof :=
  let g_w := GENERATOR * w
  let z := hashS (GENERATOR + g_w + g_x)
  let r := w - x * z
  { g_w := g_w, r := r }

/-- Translation of crypto::verify_one_in_two_zkp of the voting crate. -/
def verify_one_in_two_zkp (hashS : Point → Scalar) (zkp : OneInTwoZKP) (g_y : Point) : Bool :=
  let c := hashS (zkp.x + zkp.y + zkp.a1 + zkp.b1 + zkp.a2 + zkp.b2)
  if c ≠ zkp.d1 + zkp.d2 then false
  else if zkp.a1 ≠ GENERATOR * zkp.r1 + zkp.x * zkp.d1 then false
  else if zkp.b1 ≠ g_y * zkp.r1 + zkp.y * zkp.d1 then false
  else if zkp.a2 ≠ GENERATOR * zkp.r2 + zkp.x * zkp.d2 then false
  else if zkp.b2 ≠ g_y * zkp.r2 + (zkp.y - GENERATOR) * zkp.d2 then false
  else true

/-- Translation of off_chain::create_one_in_two_zkp_yes; the random
scalars w, r1, d1 are parameters. -/
def create_one_in_two_zkp_yes (hashS : Point → Scalar) (g_x g_y : Point) (x : Scalar)
    (w r1 d1 : Scalar) : OneInTwoZKP :=
  let y := g_y * x + GENERATOR
  let a1 := GENERATOR * r1 + g_x * d1
  let b1 := g_y * r1 + y * d1
  let a2 := GENERATOR * w
  let b2 := g_y * w
  let c := hashS (g_x + y + a1 + b1 + a2 + b2)
  let d2 := c - d1
  let r2 := w - x * d2
  { r1 := r1, r2 := r2, d1 := d1, d2 := d2, x := g_x, y := y,
    a1 := a1, b1 := b1, a2 := a2, b2 := b2 }

/-- Translation of off_chain::compute_reconstructed_key.  The source
panics (position unwrap on a missing key, last-element unwrap on an empty
list), which Option models by none.  The two index loops for j in
1..keys.len()-1 are folds over List.range' 1 (keys.length - 2). -/
def compute_reconstructed_key (keys : List Point) (g_x : Point) : Option Point :=
  (keys.findIdx? (fun k => decide (k = g_x))).bind fun position =>
  keys.getLast?.bind fun lastKey =>
    if position = 0 then
      some (-(List.foldl (fun acc i => acc + keys.getD i 0) lastKey
        (List.range' 1 (keys.length - 1 - 1))))
    else
      let folded := List.foldl
        (fun (p : Point × Point) j =>
          if j = position then p
          else if j < position then (p.1 + keys.getD j 0, p.2)
          else (p.1, p.2 + keys.getD j 0))
        (keys.headD 0, lastKey) (List.range' 1 (keys.length - 1 - 1))
      if position = keys.length - 1 then some folded.1
      else some (folded.1 - folded.2)

/-- Discrete-log search of crypto::brute_force_tally: starting from the
identity, add the generator until the tally is reached; the count of
additions is the result.  In the discrete-log representation the point
after k additions is (k : Point), so this is the least k with
(k : Point) = t, which always exists (k = t.val terminates the loop). -/
def discrete_log (t : Point) : ℕ :=
  Nat.find (⟨t.val, ZMod.natCast_zmod_val t⟩ : ∃ k : ℕ, ((k : ℕ) : Point) = t)

/-- Translation of crypto::brute_force_tally: the tally starts from the
first vote (unwrap_abort on an empty list, modelled by none) and adds the
remaining votes, then the yes count is found by the generator loop. -/
def brute_force_tally : List Point → Option ℕ
  | [] => none
  | v :: rest => some (discrete_log (rest.foldl (fun a b => a + b) v))

/-- Tail of the result entry point of the voting contract: yes votes from
brute_force_tally, no votes = votes.len() as i32 - yes_votes. -/
def tally_result (votes : List Point) : Option (ℤ × ℤ) :=
  (brute_force_tally votes).map
    (fun (yes : ℕ) => ((yes : ℤ), (votes.length : ℤ) - (yes : ℤ)))

/-! Contract state machine (crate voting, src/voting/src/lib.rs).
Account addresses are modelled as naturals, amounts and timestamps as
naturals, and the StateMap of voters as an association list in iteration
order.  Each entry point is a pure function from the pre-state and the
invocation context to either an error (the invocation aborts and the host
rolls back, leaving the state unchanged) or the post-state together with
the list of transfers the invocation emitted. -/

/-- Account address. -/
abbrev Addr := ℕ

/-- Transfer emitted through invoke_transfer: recipient and amount. -/
abbrev Transfer := Addr × ℕ

/-- MerkleProof of the util crate: the sibling path (as a list of sibling
hashes), the claimed leaf and the leaf index. -/
structure MerkleProof where
  proof : List Bytes
  leaf : Bytes
  index : ℤ
  deriving DecidableEq

/-- Byte encoding of an account address as hashed into Merkle leaves. -/
def encodeAddr (a : Addr) : Bytes := [a]

/-- Modelled from the spec: crypto::verify_merkle_proof is called by
register but its definition is absent from src/.  Per the spec (section
4.7) the claimed leaf must be the SHA-256 hash of the encoded sender, the
index must lie within the configured leaf count, and folding the leaf with
the sibling hashes according to the bits of the index (least-significant
bit first) must reproduce the configured root. -/
def merkleFold (sha : Bytes → Bytes) : Bytes → List Bytes → ℕ → Bytes
  | cur, [], _ => cur
  | cur, s :: rest, idx =>
    merkleFold sha (if idx % 2 = 0 then sha (cur ++ s) else sha (s ++ cur)) rest (idx / 2)

/-- Modelled from the spec: verification of the Merkle proof of membership
(section 4.7), see merkleFold. -/
def verify_merkle_proof (sha : Bytes → Bytes) (root : Bytes) (leafCount : ℤ)
    (mp : MerkleProof) (sender : Addr) : Bool :=
  decide (mp.leaf = sha (encodeAddr sender)) &&
  decide (0 ≤ mp.index ∧ mp.index < leafCount) &&
  decide (merkleFold sha mp.leaf mp.proof mp.index.toNat = root)

/-- VotingPhase enum of the voting contract. -/
inductive VotingPhase
  | Registration
  | Commit
  | Vote
  | Result
  | Abort
  deriving DecidableEq

/-- VoteConfig of the voting contract. -/
structure VoteConfig where
  merkle_root : Bytes
  merkle_leaf_count : ℤ
  voting_question : String
  deposit : ℕ
  registration_timeout : ℕ
  commit_timeout : ℕ
  vote_timeout : ℕ
  deriving DecidableEq

/-- Voter record of the voting contract.  The byte fields keep the byte
representation of the source because the contract tests them for
emptiness; a field is set iff it is nonempty. -/
structure Voter where
  voting_key : Bytes
  voting_key_zkp : SchnorrProof
  reconstructed_key : Bytes
  commitment : Bytes
  vote : Bytes
  vote_zkp : OneInTwoZKP
  deriving DecidableEq

/-- Voter::default(): every byte field empty. -/
def defaultVoter : Voter :=
  { voting_key := [], voting_key_zkp := ⟨0, 0⟩, reconstructed_key := [],
    commitment := [], vote := [], vote_zkp := ⟨0, 0, 0, 0, 0, 0, 0, 0, 0, 0⟩ }

/-- VotingState of the voting contract; voters is the StateMap in
iteration order. -/
structure VotingState where
  config : VoteConfig
  voting_phase : VotingPhase
  voting_result : ℤ × ℤ
  voters : List (Addr × Voter)
  deriving DecidableEq

/-- Lookup of a voter by address (StateMap::get). -/
def lookupVoter (voters : List (Addr × Voter)) (a : Addr) : Option Voter :=
  (voters.find? (fun p => decide (p.1 = a))).map Prod.snd

/-- In-place update of a voter by address (StateMap::get_mut followed by
field assignment); iteration order is unchanged. -/
def updateVoter (voters : List (Addr × Voter)) (a : Addr) (v : Voter) :
    List (Addr × Voter) :=
  voters.map (fun p => if p.1 = a then (p.1, v) else p)

/-- RegisterMessage of the voting contract. -/
structure RegisterMessage where
  voting_key : Bytes
  voting_key_zkp : SchnorrProof
  merkle_proof : MerkleProof
  deriving DecidableEq

/-- CommitMessage of the voting contract. -/
structure CommitMessage where
  reconstructed_key : Bytes
  commitment : Bytes
  deriving DecidableEq

/-- VoteMessage of the voting contract. -/
structure VoteMessage where
  vote : Bytes
  vote_zkp : OneInTwoZKP
  deriving DecidableEq

/-- SetupError of the types module (parse errors are host-level). -/
inductive SetupError
  | InvalidRegistrationTimeout
  | InvalidPrecommitTimeout
  | InvalidVoteTimeout
  deriving DecidableEq

/-- RegisterError of the types module.  Trap models unwrap_abort aborts
inside called crypto code. -/
inductive RegisterError
  | UnauthorizedVoter
  | ContractSender
  | WrongDeposit
  | NotRegistrationPhase
  | PhaseEnded
  | AlreadyRegistered
  | InvalidZKP
  | InvalidVotingKey
  deriving DecidableEq

/-- CommitError of the types module; Trap models unwrap_abort aborts. -/
inductive CommitError
  | UnauthorizedVoter
  | ContractSender
  | NotCommitPhase
  | PhaseEnded
  | VoterNotFound
  | InvalidCommitMessage
  | Trap
  deriving DecidableEq

/-- VoteError of the types module; Trap models unwrap_abort aborts. -/
inductive VoteError
  | UnauthorizedVoter
  | ContractSender
  | NotVotePhase
  | PhaseEnded
  | VoterNotFound
  | InvalidZKP
  | VoteCommitmentMismatch
  | AlreadyVoted
  | Trap
  deriving DecidableEq

/-- ResultError of the types module; Trap models unwrap_abort aborts
(brute_force_tally on an empty vote list, undecodable vote bytes). -/
inductive ResultError
  | NotResultPhase
  | Trap
  deriving DecidableEq

/-- Translation of the setup init function: validate the timeout chain
and create the initial state in Registration with tally (-1, -1) and an
empty voters map.  The deposit >= 0 check of the source is vacuous for a
natural amount. -/
def setup (now : ℕ) (cfg : VoteConfig) : Except SetupError VotingState :=
  if ¬ (cfg.registration_timeout > now) then .error .InvalidRegistrationTimeout
  else if ¬ (cfg.commit_timeout > cfg.registration_timeout) then .error .InvalidPrecommitTimeout
  else if ¬ (cfg.vote_timeout > cfg.commit_timeout) then .error .InvalidVoteTimeout
  else .ok { config := cfg, voting_phase := .Registration, voting_result := (-1, -1),
             voters := [] }

/-- Translation of the register entry point.  The sender is an account
address (a contract sender bails before reaching this function, leaving
the state unchanged).  The insert-then-validate order of the source is
equivalent to validate-then-insert because the host rolls back the
insertion on any later bail. -/
def register (sha : Bytes → Bytes) (hashS : Point → Scalar) (st : VotingState)
    (sender : Addr) (now : ℕ) (deposit : ℕ) (msg : RegisterMessage) :
    Except RegisterError (VotingState × List Transfer) :=
  if st.voting_phase ≠ .Registration then .error .NotRegistrationPhase
  else if st.config.deposit ≠ deposit then .error .WrongDeposit
  else if ¬ (now ≤ st.config.registration_timeout) then .error .PhaseEnded
  else if ¬ (verify_merkle_proof sha st.config.merkle_root st.config.merkle_leaf_count
      msg.merkle_proof sender) then .error .UnauthorizedVoter
  else if (lookupVoter st.voters sender).isSome then .error .AlreadyRegistered
  else
    match convert_vec_to_point msg.voting_key with
    | none => .error .InvalidVotingKey
    | some p =>
      if ¬ (verify_schnorr_zkp hashS p msg.voting_key_zkp) then .error .InvalidZKP
      else
        let newVoter : Voter := { defaultVoter with
          voting_key := msg.voting_key
          voting_key_zkp := msg.voting_key_zkp }
        let voters := st.voters ++ [(sender, newVoter)]
        let phase := if (voters.length : ℤ) = st.config.merkle_leaf_count then
          VotingPhase.Commit else st.voting_phase
        .ok ({ st with voters := voters, voting_phase := phase }, [])

/-- Ordered list of all stored voting keys, decoded
(convert_vec_to_point on each, which traps when some key fails to
decode: none models the trap). -/
def storedKeys (voters : List (Addr × Voter)) : Option (List Point) :=
  voters.mapM (fun p => convert_vec_to_point p.2.voting_key)

/-- Translation of the commit entry point. -/
def commit (st : VotingState) (sender : Addr) (now : ℕ) (msg : CommitMessage) :
    Except CommitError (VotingState × List Transfer) :=
  if st.voting_phase ≠ .Commit then .error .NotCommitPhase
  else
    match lookupVoter st.voters sender with
    | none => .error .UnauthorizedVoter
    | some v =>
      if ¬ (now ≤ st.config.commit_timeout) then .error .PhaseEnded
      else if msg.commitment = [] then .error .InvalidCommitMessage
      else if msg.reconstructed_key = [] then .error .InvalidCommitMessage
      else
        match storedKeys st.voters, convert_vec_to_point v.voting_key with
        | some keys, some own =>
          match compute_reconstructed_key keys own with
          | none => .error .Trap
          | some derived =>
            if msg.reconstructed_key ≠ point_to_bytes derived then
              .error .InvalidCommitMessage
            else
              let voters := updateVoter st.voters sender
                { v with reconstructed_key := msg.reconstructed_key,
                         commitment := msg.commitment }
              let phase := if voters.all
                  (fun p => p.2.commitment ≠ [] ∧ p.2.reconstructed_key ≠ []) then
                VotingPhase.Vote else st.voting_phase
              .ok ({ st with voters := voters, voting_phase := phase }, [])
        | _, _ => .error .Trap

/-- Translation of crypto::check_commitment: the SHA-256 digest of the
encoded vote must equal the stored commitment. -/
def check_commitment (sha : Bytes → Bytes) (vote : Point) (commitment : Bytes) : Bool :=
  decide (sha (point_to_bytes vote) = commitment)

/-- Translation of the vote entry point; the deposit refund to the sender
is the emitted transfer. -/
def vote (sha : Bytes → Bytes) (hashS : Point → Scalar) (st : VotingState)
    (sender : Addr) (now : ℕ) (msg : VoteMessage) :
    Except VoteError (VotingState × List Transfer) :=
  if st.voting_phase ≠ .Vote then .error .NotVotePhase
  else
    match lookupVoter st.voters sender with
    | none => .error .UnauthorizedVoter
    | some v =>
      if ¬ (now ≤ st.config.vote_timeout) then .error .PhaseEnded
      else if v.vote ≠ [] then .error .AlreadyVoted
      else
        match convert_vec_to_point v.reconstructed_key with
        | none => .error .Trap
        | some rk =>
          if ¬ (verify_one_in_two_zkp hashS msg.vote_zkp rk) then .error .InvalidZKP
          else
            match convert_vec_to_point msg.vote with
            | none => .error .Trap
            | some votePoint =>
              if ¬ (check_commitment sha votePoint v.commitment) then
                .error .VoteCommitmentMismatch
              else
                let voters := updateVoter st.voters sender
                  { v with vote := msg.vote, vote_zkp := msg.vote_zkp }
                let phase := if voters.all (fun p => p.2.vote ≠ []) then
                  VotingPhase.Result else st.voting_phase
                .ok ({ st with voters := voters, voting_phase := phase },
                  [(sender, st.config.deposit)])

/-- Translation of the result entry point: decode all stored votes, brute
force the yes count, store (yes, len - yes). -/
def result (st : VotingState) :
    Except ResultError (VotingState × List Transfer) :=
  if st.voting_phase ≠ .Result then .error .NotResultPhase
  else
    match st.voters.mapM (fun p => convert_vec_to_point p.2.vote) with
    | none => .error .Trap
    | some votes =>
      match tally_result votes with
      | none => .error .Trap
      | some yn => .ok ({ st with voting_result := yn }, [])

/-- Field of the voter record whose emptiness defines a stalling voter for
the phase being aborted (trap on Result and Abort, which refund_deposits
is never called in). -/
def stallField : VotingPhase → Option (Voter → Bytes)
  | .Registration => some (fun v => v.voting_key)
  | .Commit => some (fun v => v.reconstructed_key)
  | .Vote => some (fun v => v.vote)
  | _ => none

/-- Stalling voters of a state: those missing the field required by the
phase being aborted. -/
def stallingAccounts (st : VotingState) : List Addr :=
  match stallField st.voting_phase with
  | none => []
  | some f => (st.voters.filter (fun p => decide (f p.2 = []))).map Prod.fst

/-- Honest voters of a state: those with the required field present. -/
def honestAccounts (st : VotingState) : List Addr :=
  match stallField st.voting_phase with
  | none => []
  | some f => (st.voters.filter (fun p => decide (f p.2 ≠ []))).map Prod.fst

/-- Translation of refund_deposits: reward the change_phase caller with
one deposit if they are not a stalling voter and the number of voters
minus the number of honest voters is positive, then (except when aborting
from Vote) refund one deposit to each honest voter. -/
def refund_deposits (st : VotingState) (sender : Addr) : List Transfer :=
  let reward :=
    if sender ∉ stallingAccounts st ∧
        st.voters.length - (honestAccounts st).length > 0 then
      [(sender, st.config.deposit)]
    else []
  let refunds :=
    if st.voting_phase ≠ .Vote then
      (honestAccounts st).map (fun a => (a, st.config.deposit))
    else []
  reward ++ refunds

/-- Translation of the change_phase entry point. -/
def change_phase (st : VotingState) (sender : Addr) (now : ℕ) :
    Except Empty (VotingState × List Transfer) :=
  match st.voting_phase with
  | .Registration =>
    if now > st.config.registration_timeout ∧
        (st.voters.filter (fun p => decide (p.2.voting_key ≠ []))).length > 2 then
      .ok ({ st with voting_phase := .Commit }, [])
    else if now > st.config.registration_timeout then
      .ok ({ st with voting_phase := .Abort }, refund_deposits st sender)
    else .ok (st, [])
  | .Commit =>
    if st.voters.all (fun p => p.2.reconstructed_key ≠ [] ∧ p.2.commitment ≠ []) then
      .ok ({ st with voting_phase := .Vote }, [])
    else if now > st.config.commit_timeout then
      .ok ({ st with voting_phase := .Abort }, refund_deposits st sender)
    else .ok (st, [])
  | .Vote =>
    if st.voters.all (fun p => p.2.vote ≠ []) then
      .ok ({ st with voting_phase := .Result }, [])
    else if now > st.config.vote_timeout then
      .ok ({ st with voting_phase := .Abort }, refund_deposits st sender)
    else .ok (st, [])
  | _ => .ok (st, [])

/-- One successful entry-point invocation (register, commit, vote, result
or change_phase) taking the state st to the state t. -/
inductive Step (sha : Bytes → Bytes) (hashS : Point → Scalar) :
    VotingState → VotingState → Prop
  | register {st sender now deposit msg t ts} :
      register sha hashS st sender now deposit msg = .ok (t, ts) → Step sha hashS st t
  | commit {st sender now msg t ts} :
      commit st sender now msg = .ok (t, ts) → Step sha hashS st t
  | vote {st sender now msg t ts} :
      vote sha hashS st sender now msg = .ok (t, ts) → Step sha hashS st t
  | result {st t ts} :
      result st = .ok (t, ts) → Step sha hashS st t
  | change_phase {st sender now t ts} :
      change_phase st sender now = .ok (t, ts) → Step sha hashS st t

/-- States reachable from a freshly set-up contract instance by successful
entry-point invocations. -/
inductive Reachable (sha : Bytes → Bytes) (hashS : Point → Scalar) : VotingState → Prop
  | setup {now cfg st} : setup now cfg = .ok st → Reachable sha hashS st
  | step {st t} : Reachable sha hashS st → Step sha hashS st t → Reachable sha hashS t

/-- Votes submitted by honest voters: voter i holds secret x_i = xs.getD i 0
(so that in the discrete-log representation the voting key X_i = x_i * G is
xs.getD i 0 itself, and the key list handed to compute_reconstructed_key is
xs), computes the reconstructed key H_i with compute_reconstructed_key, and
submits Y_i = x_i * H_i + v_i * G with vote bit v_i = vs.getD i 0. -/
def submittedVotes (xs : List Point) (vs : List ℕ) : List Point :=
  (List.range xs.length).map (fun i =>
    xs.getD i 0 * ((compute_reconstructed_key xs (xs.getD i 0)).getD 0)
      + ((vs.getD i 0 : ℕ) : Point))

/-! Lemmas about the entry points of the state machine. -/

/-- Index of a phase along the forward direction of the protocol. -/
def phaseIdx : VotingPhase → ℕ
  | .Registration => 0
  | .Commit => 1
  | .Vote => 2
  | .Result => 3
  | .Abort => 4

/-- Transitions the spec allows: stay put, advance one phase forward, or
abort from one of the three non-terminal phases. -/
def allowedTransition (a b : VotingPhase) : Prop :=
  a = b ∨
  (a = .Registration ∧ b = .Commit) ∨
  (a = .Commit ∧ b = .Vote) ∨
  (a = .Vote ∧ b = .Result) ∨
  ((a = .Registration ∨ a = .Commit ∨ a = .Vote) ∧ b = .Abort)

deriving instance DecidableEq for Except

/-! Modelled from the spec: SHA-256 and hash-to-scalar are external
primitives (sha2 and k256 crates, absent from src/); for concrete
executions of the model they are instantiated with simple executable
stand-ins that keep the structural properties the contract relies on
(sha0 always returns a 32-byte digest; no claim of this development
depends on the internals of either function). -/

/-- Modelled from the spec: concrete stand-in for SHA-256, a fixed
32-byte digest function. -/
def sha0 (b : Bytes) : Bytes :=
  List.replicate 31 0 ++ [b.foldl (fun a c => (a * 131 + c) % 251) 7]

/-- Modelled from the spec: concrete stand-in for hash_to_scalar applied
to a point encoding. -/
def hashS0 (P : Point) : Scalar := P * 7 + 3

/-- Configuration of the concrete one-voter run: a single authorized
voter with address 5, deposit 0, timeouts 10 < 20 < 30; the Merkle root
of the one-leaf tree is the hash of the single authorized address. -/
def cfg1 : VoteConfig :=
  { merkle_root := sha0 (encodeAddr 5), merkle_leaf_count := 1,
    voting_question := "", deposit := 0, registration_timeout := 10,
    commit_timeout := 20, vote_timeout := 30 }

/-- Register message of the concrete run: voting key G (secret 1) with an
honest Schnorr proof (randomness 3) and the singleton Merkle proof. -/
def regMsg1 : RegisterMessage :=
  { voting_key := point_to_bytes 1,
    voting_key_zkp := create_schnorr_zkp hashS0 1 1 3,
    merkle_proof := { proof := [], leaf := sha0 (encodeAddr 5), index := 0 } }

/-- Voter record after registration. -/
def voter1 : Voter :=
  { defaultVoter with
    voting_key := point_to_bytes 1
    voting_key_zkp := create_schnorr_zkp hashS0 1 1 3 }

/-- Initial state of the concrete run. -/
def s0 : VotingState :=
  { config := cfg1, voting_phase := .Registration, voting_result := (-1, -1),
    voters := [] }

/-- State after the single voter registered (auto-advanced to Commit). -/
def s1 : VotingState :=
  { config := cfg1, voting_phase := .Commit, voting_result := (-1, -1),
    voters := [(5, voter1)] }

/-- Commit message of the concrete run: the derived reconstructed key of
the one-voter list is -G, and the commitment is the hash of the encoding
of the point 5G that will later be submitted as the vote. -/
def cmtMsg1 : CommitMessage :=
  { reconstructed_key := point_to_bytes (-1),
    commitment := sha0 (point_to_bytes 5) }

/-- Voter record after committing. -/
def voter2 : Voter :=
  { voter1 with
    reconstructed_key := point_to_bytes (-1)
    commitment := sha0 (point_to_bytes 5) }

/-- State after the commit (auto-advanced to Vote). -/
def s2 : VotingState :=
  { config := cfg1, voting_phase := .Vote, voting_result := (-1, -1),
    voters := [(5, voter2)] }

/-- Vote message of the concrete run: the submitted vote point is 5G
while the 1-of-2 proof is an honest yes proof for a different secret (2)
under the stored reconstructed key -G, whose ciphertext point y = -G
differs from the submitted vote. -/
def voteMsg1 : VoteMessage :=
  { vote := point_to_bytes 5,
    vote_zkp := create_one_in_two_zkp_yes hashS0 (GENERATOR * 2) (-1) 2 3 4 5 }

/-- Voter record after voting. -/
def voter3 : Voter :=
  { voter2 with
    vote := point_to_bytes 5
    vote_zkp := voteMsg1.vote_zkp }

/-- State after the vote (auto-advanced to Result; the result entry point
has not run, so the tally is still (-1, -1)). -/
def s3 : VotingState :=
  { config := cfg1, voting_phase := .Result, voting_result := (-1, -1),
    voters := [(5, voter3)] }

/-! Counting lemmas for the refund policy (claim C2). -/

/-- Number of transfers in ts whose recipient is a. -/
def countTo (ts : List Transfer) (a : Addr) : ℕ :=
  (ts.filter (fun e => decide (e.1 = a))).length

/-- Deposit-100 configuration for the refund witness scenario. -/
def cfgD : VoteConfig := { cfg1 with deposit := 100 }

/-- Second voter of the witness scenario, registered but never
committed. -/
def voterB : Voter := { defaultVoter with voting_key := point_to_bytes 2 }

/-- Commit-phase state with one committed voter (address 5) and one
stalling voter (address 7). -/
def sC : VotingState :=
  { config := cfgD, voting_phase := .Commit, voting_result := (-1, -1),
    voters := [(5, voter2), (7, voterB)] }

/-- The state sC after the abort. -/
def sCab : VotingState := { sC with voting_phase := .Abort }

/-- Commit message for the recommit witness: the derived reconstructed
key of voter 5 in the two-voter list (G, 2G) is -2G. -/
def cmtMsgB : CommitMessage :=
  { reconstructed_key := point_to_bytes (-2),
    commitment := sha0 (point_to_bytes 5) }

/-! Supporting lemmas about the group-level computations. -/

theorem headD_eq_getD {α : Type} (l : List α) (d : α) : l.headD d = l.getD 0 d := by
  cases l <;> rfl

theorem foldl_add_eq_sum (l : List Point) : ∀ init : Point,
    l.foldl (fun a b => a + b) init = init + l.sum := by
  induction l with
  | nil => intro init; simp
  | cons x xs ih =>
    intro init
    rw [List.foldl_cons, ih, List.sum_cons]
    ring

theorem foldl_add_map (g : ℕ → Point) (l : List ℕ) : ∀ init : Point,
    l.foldl (fun acc i => acc + g i) init = init + (l.map g).sum := by
  induction l with
  | nil => intro init; simp
  | cons x xs ih =>
    intro init
    rw [List.foldl_cons, ih, List.map_cons, List.sum_cons]
    ring

theorem range'_map_getD_sum (xs : List Point) :
    ∀ (n a : ℕ), a + n ≤ xs.length →
    ((List.range' a n).map (fun j => xs.getD j 0)).sum = ((xs.drop a).take n).sum := by
  intro n
  induction n with
  | zero => simp
  | succ m ih =>
    intro a h
    have ha : a < xs.length := by omega
    rw [List.range'_succ, List.map_cons, List.sum_cons,
      List.drop_eq_getElem_cons ha, List.take_succ_cons, List.sum_cons,
      ih (a + 1) (by omega), List.getD_eq_getElem xs 0 ha]

theorem pair_foldl_filter (g : ℕ → Point) (pos : ℕ) :
    ∀ (l : List ℕ) (b a : Point),
    l.foldl (fun (p : Point × Point) j =>
      if j = pos then p
      else if j < pos then (p.1 + g j, p.2) else (p.1, p.2 + g j)) (b, a)
    = (b + ((l.filter (fun j => decide (j < pos))).map g).sum,
       a + ((l.filter (fun j => decide (pos < j))).map g).sum) := by
  intro l
  induction l with
  | nil => intro b a; simp
  | cons x xs ih =>
    intro b a
    rw [List.foldl_cons]
    by_cases hx : x = pos
    · subst hx
      have e1 : List.filter (fun j => decide (j < x)) (x :: xs)
          = List.filter (fun j => decide (j < x)) xs := by
        simp [List.filter_cons]
      have e2 : List.filter (fun j => decide (x < j)) (x :: xs)
          = List.filter (fun j => decide (x < j)) xs := by
        simp [List.filter_cons]
      rw [e1, e2, if_pos rfl, ih]
    · by_cases hlt : x < pos
      · have hgt : ¬ (pos < x) := by omega
        have e1 : List.filter (fun j => decide (j < pos)) (x :: xs)
            = x :: List.filter (fun j => decide (j < pos)) xs := by
          simp [List.filter_cons, hlt]
        have e2 : List.filter (fun j => decide (pos < j)) (x :: xs)
            = List.filter (fun j => decide (pos < j)) xs := by
          simp [List.filter_cons, hgt]
        rw [e1, e2, if_neg hx, if_pos hlt, ih, List.map_cons, List.sum_cons,
          Prod.mk.injEq]
        exact ⟨by ring, rfl⟩
      · have hgt : pos < x := by omega
        have e1 : List.filter (fun j => decide (j < pos)) (x :: xs)
            = List.filter (fun j => decide (j < pos)) xs := by
          simp [List.filter_cons, hlt]
        have e2 : List.filter (fun j => decide (pos < j)) (x :: xs)
            = x :: List.filter (fun j => decide (pos < j)) xs := by
          simp [List.filter_cons, hgt]
        rw [e1, e2, if_neg hx, if_neg hlt, ih, List.map_cons, List.sum_cons,
          Prod.mk.injEq]
        exact ⟨rfl, by ring⟩

theorem filter_range'_lt (pos : ℕ) :
    ∀ n, (List.range' 1 n).filter (fun j => decide (j < pos))
      = List.range' 1 (min n (pos - 1)) := by
  intro n
  induction n with
  | zero => simp
  | succ m ih =>
    rw [List.range'_concat, List.filter_append, ih]
    by_cases h : 1 + m < pos
    · have h1 : min m (pos - 1) = m := by omega
      have h2 : min (m + 1) (pos - 1) = m + 1 := by omega
      rw [h1, h2, List.range'_concat]
      simp [h]
    · have h1 : min m (pos - 1) = min (m + 1) (pos - 1) := by omega
      rw [h1]
      simp [h]

theorem filter_range'_gt (pos : ℕ) :
    ∀ n, (List.range' 1 n).filter (fun j => decide (pos < j))
      = List.range' (pos + 1) (n - pos) := by
  intro n
  induction n with
  | zero => simp
  | succ m ih =>
    rw [List.range'_concat, List.filter_append, ih]
    by_cases h : pos < 1 + m
    · have h1 : m + 1 - pos = (m - pos) + 1 := by omega
      rw [h1, List.range'_concat]
      have h2 : pos + 1 + 1 * (m - pos) = 1 + 1 * m := by omega
      rw [h2]
      simp [h]
    · have h1 : m + 1 - pos = 0 := by omega
      have h2 : m - pos = 0 := by omega
      rw [h1, h2]
      simp [h]

theorem findIdx?_nodup (xs : List Point) :
    ∀ (i s : ℕ), xs.Nodup → (hi : i < xs.length) →
    List.findIdx? (fun k => decide (k = xs[i])) xs s = some (s + i) := by
  induction xs with
  | nil => intro i s _ hi; simp at hi
  | cons x ys ih =>
    intro i s hnd hi
    match i with
    | 0 =>
      rw [List.findIdx?_cons]
      simp
    | Nat.succ j =>
      have hj : j < ys.length := by
        simpa using hi
      rw [List.findIdx?_cons]
      simp only [List.getElem_cons_succ]
      have hx : ¬ (x = ys[j]) := by
        intro hEq
        exact (List.nodup_cons.mp hnd).1 (hEq ▸ List.getElem_mem hj)
      rw [if_neg (by simpa using hx), ih j (s + 1) (List.nodup_cons.mp hnd).2 hj]
      congr 1
      omega

theorem drop_pred_eq_getLast (xs : List Point) (h : xs ≠ []) :
    xs.drop (xs.length - 1) = [xs.getD (xs.length - 1) 0] := by
  have hl : xs.length - 1 < xs.length := by
    cases xs with
    | nil => exact absurd rfl h
    | cons a l => simp
  rw [List.drop_eq_getElem_cons hl, List.getD_eq_getElem xs 0 hl]
  have : xs.length - 1 + 1 = xs.length := by omega
  rw [this, List.drop_length]

/-- Characterization of compute_reconstructed_key on a duplicate-free key
list of length at least two: voter i receives the sum of the keys before
theirs minus the sum of the keys after theirs, the formula of spec
section 4.4. -/
theorem compute_reconstructed_key_spec (xs : List Point) (hnd : xs.Nodup)
    (i : ℕ) (hi : i < xs.length) (h2 : 2 ≤ xs.length) :
    compute_reconstructed_key xs (xs.getD i 0)
      = some ((xs.take i).sum - (xs.drop (i + 1)).sum) := by
  have hne : xs ≠ [] := by
    intro h
    rw [h] at hi
    simp at hi
  have hL1 : xs.length - 1 < xs.length := by omega
  have hfind : xs.findIdx? (fun k => decide (k = xs.getD i 0)) = some i := by
    rw [List.getD_eq_getElem xs 0 hi]
    simpa using findIdx?_nodup xs i 0 hnd hi
  have hlast : xs.getLast? = some (xs.getD (xs.length - 1) 0) := by
    rw [List.getLast?_eq_getElem?, List.getD_eq_getElem xs 0 hL1]
    exact List.getElem?_eq_getElem hL1
  have hx0 : xs = xs.getD 0 0 :: xs.drop 1 := by
    have h0 : (0 : ℕ) < xs.length := by omega
    rw [List.getD_eq_getElem xs 0 h0]
    have := @List.drop_eq_getElem_cons _ 0 xs h0
    simpa using this
  rw [compute_reconstructed_key, hfind, hlast, Option.some_bind, Option.some_bind]
  by_cases hi0 : i = 0
  · subst hi0
    rw [if_pos rfl]
    rw [foldl_add_map, range'_map_getD_sum xs (xs.length - 1 - 1) 1 (by omega)]
    have hsplit := List.sum_take_add_sum_drop (xs.drop 1) (xs.length - 1 - 1)
    have hdd : (xs.drop 1).drop (xs.length - 1 - 1) = xs.drop (xs.length - 1) := by
      rw [List.drop_drop]
      congr 1
      omega
    rw [hdd, drop_pred_eq_getLast xs hne] at hsplit
    simp only [List.sum_cons, List.sum_nil, add_zero] at hsplit
    rw [List.take_zero, List.sum_nil, zero_sub]
    congr 1
    linear_combination -hsplit
  · obtain ⟨j, rfl⟩ : ∃ j, i = j + 1 := ⟨i - 1, by omega⟩
    simp only [if_neg hi0]
    rw [pair_foldl_filter, filter_range'_lt, filter_range'_gt]
    have hmin : min (xs.length - 1 - 1) (j + 1 - 1) = j := by omega
    rw [hmin]
    have hbefore : xs.headD 0 + ((List.range' 1 j).map (fun k => xs.getD k 0)).sum
        = (xs.take (j + 1)).sum := by
      rw [range'_map_getD_sum xs j 1 (by omega), headD_eq_getD]
      conv_rhs => rw [hx0]
      rw [List.take_succ_cons, List.sum_cons]
    by_cases hlp : j + 1 = xs.length - 1
    · rw [if_pos hlp]
      have hdropnil : xs.drop (j + 1 + 1) = [] := by
        apply List.drop_eq_nil_of_le
        omega
      rw [hdropnil, List.sum_nil, sub_zero]
      simp only []
      rw [hbefore]
    · rw [if_neg hlp]
      have hjb : j + 1 ≤ xs.length - 2 := by omega
      have hafter : xs.getD (xs.length - 1) 0 +
          ((List.range' (j + 1 + 1) (xs.length - 1 - 1 - (j + 1))).map
            (fun k => xs.getD k 0)).sum
          = (xs.drop (j + 1 + 1)).sum := by
        rw [range'_map_getD_sum xs (xs.length - 1 - 1 - (j + 1)) (j + 1 + 1) (by omega)]
        have hsplit := List.sum_take_add_sum_drop (xs.drop (j + 1 + 1))
          (xs.length - 1 - 1 - (j + 1))
        have hdd : (xs.drop (j + 1 + 1)).drop (xs.length - 1 - 1 - (j + 1))
            = xs.drop (xs.length - 1) := by
          rw [List.drop_drop]
          congr 1
          omega
        rw [hdd, drop_pred_eq_getLast xs hne] at hsplit
        simp only [List.sum_cons, List.sum_nil, add_zero] at hsplit
        linear_combination hsplit
      simp only []
      rw [hbefore, hafter]

theorem sum_getD {M : Type} [AddCommMonoid M] (l : List M) :
    ∑ i ∈ Finset.range l.length, l.getD i 0 = l.sum := by
  induction l with
  | nil => simp
  | cons x ys ih =>
    rw [List.length_cons, Finset.sum_range_succ']
    simp only [List.getD_cons_succ, List.getD_cons_zero]
    rw [ih, List.sum_cons, add_comm]

/-- Key algebraic fact behind self-tallying: the scalar-weighted sum of
the reconstructed-key values vanishes (spec section 4.4, in the
discrete-log representation where the key of secret x is x itself). -/
theorem sum_mul_reconstructed (xs : List Point) :
    ∑ i ∈ Finset.range xs.length,
      xs.getD i 0 * ((xs.take i).sum - (xs.drop (i + 1)).sum) = 0 := by
  induction xs with
  | nil => simp
  | cons x ys ih =>
    rw [List.length_cons, Finset.sum_range_succ']
    simp only [List.getD_cons_succ, List.getD_cons_zero, List.take_succ_cons,
      List.take_zero, List.drop_succ_cons, List.drop_zero, List.sum_cons,
      List.sum_nil]
    have hstep : ∀ k : ℕ, ys.getD k 0 * (x + (ys.take k).sum - (ys.drop (k + 1)).sum)
        = ys.getD k 0 * x + ys.getD k 0 * ((ys.take k).sum - (ys.drop (k + 1)).sum) := by
      intro k
      ring
    rw [Finset.sum_congr rfl (fun k _ => hstep k), Finset.sum_add_distrib,
      ← Finset.sum_mul, sum_getD, ih]
    ring

theorem list_sum_range {M : Type} [AddCommMonoid M] (f : ℕ → M) (n : ℕ) :
    ((List.range n).map f).sum = ∑ i ∈ Finset.range n, f i := by
  induction n with
  | zero => simp
  | succ m ih =>
    rw [List.range_succ, List.map_append, List.sum_append, Finset.sum_range_succ, ih]
    simp

theorem discrete_log_natCast (n : ℕ) (h : n < q) : discrete_log ((n : Point)) = n := by
  rw [discrete_log, Nat.find_eq_iff]
  refine ⟨rfl, ?_⟩
  intro m hm hcast
  have hv := congrArg ZMod.val hcast
  rw [ZMod.val_cast_of_lt (lt_trans hm h), ZMod.val_cast_of_lt h] at hv
  omega

theorem brute_force_tally_cons (v : Point) (rest : List Point) :
    brute_force_tally (v :: rest) = some (discrete_log ((v :: rest).sum)) := by
  rw [brute_force_tally, foldl_add_eq_sum, List.sum_cons]

theorem submittedVotes_sum (xs : List Point) (vs : List ℕ)
    (hnd : xs.Nodup) (h2 : 2 ≤ xs.length) (hlen : vs.length = xs.length) :
    (submittedVotes xs vs).sum = ((vs.sum : ℕ) : Point) := by
  rw [submittedVotes, list_sum_range, Finset.sum_add_distrib]
  have hzero : ∑ i ∈ Finset.range xs.length,
      xs.getD i 0 * ((compute_reconstructed_key xs (xs.getD i 0)).getD 0) = 0 := by
    rw [Finset.sum_congr rfl (fun i hmem => by
      rw [compute_reconstructed_key_spec xs hnd i (Finset.mem_range.mp hmem) h2,
        Option.getD_some])]
    exact sum_mul_reconstructed xs
  have hvsum : ∑ i ∈ Finset.range xs.length, ((vs.getD i 0 : ℕ) : Point)
      = ((vs.sum : ℕ) : Point) := by
    rw [← hlen, ← Nat.cast_sum, sum_getD]
  rw [hzero, hvsum, zero_add]

/-- C1.  Corrected form.  For N >= 2 pairwise-distinct secret scalars
(with N below the group order), reconstructed keys computed by
compute_reconstructed_key from the ordered voting-key list, and any vote
assignment with bits in {0,1}, brute_force_tally on the submitted votes
Y_i = x_i * H_i + v_i * G returns the number of yes votes, and the result
computation produces the pair (sum v, N - sum v).  The original claim
also admitted N = 1 and duplicate secrets, where it fails (see the
counterexample). -/
theorem C1_tally_correct (xs : List Point) (vs : List ℕ)
    (hnd : xs.Nodup) (h2 : 2 ≤ xs.length) (hq : xs.length < q)
    (hlen : vs.length = xs.length) (hbits : ∀ b ∈ vs, b ≤ 1) :
    brute_force_tally (submittedVotes xs vs) = some vs.sum ∧
    tally_result (submittedVotes xs vs)
      = some ((vs.sum : ℤ), (xs.length : ℤ) - (vs.sum : ℤ)) := by
  have hsum := submittedVotes_sum xs vs hnd h2 hlen
  have hlensv : (submittedVotes xs vs).length = xs.length := by
    rw [submittedVotes, List.length_map, List.length_range]
  have hvs_lt : vs.sum < q := by
    have hle : vs.sum ≤ vs.length • 1 := List.sum_le_card_nsmul vs 1 hbits
    rw [smul_eq_mul, mul_one] at hle
    omega
  obtain ⟨y, rest, hy⟩ : ∃ y rest, submittedVotes xs vs = y :: rest := by
    cases hsv : submittedVotes xs vs with
    | nil =>
      rw [hsv] at hlensv
      simp at hlensv
      omega
    | cons y rest => exact ⟨y, rest, rfl⟩
  have hbf : brute_force_tally (submittedVotes xs vs) = some vs.sum := by
    rw [hy, brute_force_tally_cons, ← hy, hsum, discrete_log_natCast vs.sum hvs_lt]
  refine ⟨hbf, ?_⟩
  rw [tally_result, hbf, Option.map_some', hlensv]

/-- C1.  Witness: two voters with secrets 1 and 2 and votes (yes, no);
the tally is 1 yes and 1 no. -/
theorem C1_tally_correct_witness :
    brute_force_tally (submittedVotes [(1 : Point), 2] [1, 0])
      = some (List.sum [1, 0]) ∧
    tally_result (submittedVotes [(1 : Point), 2] [1, 0])
      = some ((List.sum [1, 0] : ℤ), (([(1 : Point), 2].length : ℤ))
          - (List.sum [1, 0] : ℤ)) :=
  C1_tally_correct [(1 : Point), 2] [1, 0] (by decide) (by decide) (by decide)
    (by decide) (by decide)

/-- C1.  Counterexample to the claim as stated: with N = 1 (allowed by
the claim, which quantifies over N >= 1), secret x_0 = 1 and vote v_0 = 0,
compute_reconstructed_key returns -X_0 instead of the identity (its
after-points accumulator starts from the last key, the voter's own one),
so the submitted vote is -1 and the result pair is (q - 1, 2 - q), not
the (0, 1) the claim demands. -/
theorem C1_tally_counterexample :
    tally_result (submittedVotes [(1 : Point)] [0]) ≠ some (0, 1) := by
  have h1 : submittedVotes [(1 : Point)] [0] = [((q - 1 : ℕ) : Point)] := by decide
  have hq1 : q - 1 < q := by
    have h0 : 0 < q := by decide
    omega
  rw [tally_result, h1, brute_force_tally_cons, List.sum_cons, List.sum_nil,
    add_zero, discrete_log_natCast (q - 1) hq1, Option.map_some']
  intro h
  rw [Option.some.injEq, Prod.mk.injEq] at h
  have h2 : ((q - 1 : ℕ) : ℤ) = 0 := h.1
  rw [Nat.cast_eq_zero] at h2
  have : q - 1 ≠ 0 := by decide
  exact this h2

/-- C3.  Counterexample to the claim as stated: for the ordered key list
(G, 2G) (discrete logs 1 and 2), the sum of the two reconstructed keys is
H_0 + H_1 = -2G + G = -G, not the identity. -/
theorem C3_sum_counterexample :
    ¬ (∑ i ∈ Finset.range ([(1 : Point), 2].length),
      ((compute_reconstructed_key [(1 : Point), 2]
        ([(1 : Point), 2].getD i 0)).getD 0) = 0) := by
  decide

/-- C3.  Corrected form.  The unweighted sum of the reconstructed keys is
not the identity in general (see the counterexample); what holds — and
what the spec itself records as the key property of section 4.4 — is that
the sum weighted by the secret scalars vanishes: for every duplicate-free
ordered list of voting keys X_i = x_i * G of length N >= 2,
sum_i x_i * H_i = 0 with H_i produced by compute_reconstructed_key.  In
the discrete-log representation X_i and x_i coincide. -/
theorem C3_weighted_sum_zero (xs : List Point)
    (hnd : xs.Nodup) (h2 : 2 ≤ xs.length) :
    ∑ i ∈ Finset.range xs.length,
      xs.getD i 0 * ((compute_reconstructed_key xs (xs.getD i 0)).getD 0) = 0 := by
  rw [Finset.sum_congr rfl (fun i hmem => by
    rw [compute_reconstructed_key_spec xs hnd i (Finset.mem_range.mp hmem) h2,
      Option.getD_some])]
  exact sum_mul_reconstructed xs

/-- C3.  Witness: the weighted sum vanishes on the concrete key list
(G, 2G). -/
theorem C3_weighted_sum_zero_witness :
    ∑ i ∈ Finset.range ([(1 : Point), 2].length),
      ([(1 : Point), 2].getD i 0 *
        ((compute_reconstructed_key [(1 : Point), 2]
          ([(1 : Point), 2].getD i 0)).getD 0)) = 0 :=
  C3_weighted_sum_zero [(1 : Point), 2] (by decide) (by decide)

theorem beVal_foldl (l : Bytes) : ∀ acc : ℕ,
    l.foldl (fun a b => a * 256 + b) acc = acc * 256 ^ l.length + beVal l := by
  induction l with
  | nil => intro acc; simp [beVal]
  | cons d rest ih =>
    intro acc
    rw [List.foldl_cons, ih (acc * 256 + d)]
    have hbv : beVal (d :: rest) = d * 256 ^ rest.length + beVal rest := by
      rw [beVal, List.foldl_cons]
      have := ih d
      simpa [beVal] using this
    rw [hbv, List.length_cons]
    ring

theorem digit_mod_pow (n w i : ℕ) (hiw : i < w) :
    n / 256 ^ (w - 1 - i) % 256 = (n % 256 ^ w) / 256 ^ (w - 1 - i) % 256 := by
  have hn : n = n % 256 ^ w + n / 256 ^ w * 256 ^ (i + 1) * 256 ^ (w - 1 - i) := by
    rw [mul_assoc, ← pow_add, show (i + 1) + (w - 1 - i) = w from by omega,
      Nat.mul_comm (n / 256 ^ w) (256 ^ w)]
    exact (Nat.mod_add_div n (256 ^ w)).symm
  conv_lhs => rw [hn]
  rw [Nat.add_mul_div_right _ _ (Nat.pos_pow_of_pos _ (by norm_num)),
    pow_succ, ← mul_assoc, Nat.add_mul_mod_self_right]

theorem beBytes_succ (w n : ℕ) (h : n < 256 ^ (w + 1)) :
    beBytes (w + 1) n = (n / 256 ^ w) :: beBytes w (n % 256 ^ w) := by
  rw [beBytes, beBytes, List.range_succ_eq_map, List.map_cons, List.map_map]
  congr 1
  · have hd : n / 256 ^ w < 256 := by
      apply Nat.div_lt_of_lt_mul
      rw [← pow_succ]
      exact h
    simp [Nat.mod_eq_of_lt hd]
  · apply List.map_congr_left
    intro i hi
    have hiw : i < w := by simpa using hi
    simp only [Function.comp_apply]
    have harith : w + 1 - 1 - (i + 1) = w - 1 - i := by omega
    rw [harith]
    exact digit_mod_pow n w i hiw

theorem beBytes_length (w n : ℕ) : (beBytes w n).length = w := by
  rw [beBytes, List.length_map, List.length_range]

theorem beVal_beBytes (w : ℕ) : ∀ n : ℕ, n < 256 ^ w → beVal (beBytes w n) = n := by
  induction w with
  | zero =>
    intro n h
    have h0 : n = 0 := by
      have h1 : n < 1 := by simpa using h
      omega
    subst h0
    rfl
  | succ v ih =>
    intro n h
    rw [beBytes_succ v n h]
    have hlen : (beBytes v (n % 256 ^ v)).length = v := beBytes_length v _
    have hmod := ih (n % 256 ^ v) (Nat.mod_lt n (Nat.pos_pow_of_pos _ (by norm_num)))
    rw [beVal, List.foldl_cons, beVal_foldl, hlen, hmod, Nat.zero_mul, Nat.zero_add,
      Nat.mul_comm]
    exact Nat.div_add_mod n (256 ^ v)

theorem beBytes_all_lt (w n : ℕ) : (beBytes w n).all (fun b => b < 256) = true := by
  rw [List.all_eq_true]
  intro b hb
  rw [beBytes, List.mem_map] at hb
  obtain ⟨i, _, rfl⟩ := hb
  simpa using Nat.mod_lt _ (by norm_num)

theorem q_lt_pow : q < 256 ^ 32 := by decide

theorem beBytes_inj (w : ℕ) {m n : ℕ} (hm : m < 256 ^ w) (hn : n < 256 ^ w)
    (h : beBytes w m = beBytes w n) : m = n := by
  have := congrArg beVal h
  rw [beVal_beBytes w m hm, beVal_beBytes w n hn] at this
  exact this

theorem scalar_roundtrip (s : Scalar) (hs : s ≠ 0) :
    convert_vec_to_scalar (scalar_to_bytes s) = some s := by
  have hval : s.val < q := ZMod.val_lt s
  have hpos : 0 < s.val := by
    rcases Nat.eq_zero_or_pos s.val with h | h
    · exact absurd (by rw [← ZMod.natCast_zmod_val s, h, Nat.cast_zero]) hs
    · exact h
  have hbe : beVal (beBytes 32 s.val) = s.val :=
    beVal_beBytes 32 s.val (lt_trans hval q_lt_pow)
  rw [convert_vec_to_scalar, scalar_to_bytes, if_pos]
  · rw [hbe, ZMod.natCast_zmod_val]
  · refine ⟨beBytes_length 32 s.val, beBytes_all_lt 32 s.val, ?_, ?_⟩
    · rw [hbe]; exact hpos
    · rw [hbe]; exact hval

theorem point_roundtrip (P : Point) (hP : P ≠ 0) :
    convert_vec_to_point (point_to_bytes P) = some P := by
  have hval : P.val < q := ZMod.val_lt P
  have hpos : 0 < P.val := by
    rcases Nat.eq_zero_or_pos P.val with h | h
    · exact absurd (by rw [← ZMod.natCast_zmod_val P, h, Nat.cast_zero]) hP
    · exact h
  have hbe : beVal (beBytes 32 P.val) = P.val :=
    beVal_beBytes 32 P.val (lt_trans hval q_lt_pow)
  rw [point_to_bytes, if_neg hP, convert_vec_to_point, if_pos]
  · rw [hbe, ZMod.natCast_zmod_val]
  · refine ⟨beBytes_length 32 P.val, beBytes_all_lt 32 P.val, ?_, ?_, ?_⟩
    · rw [hbe]; exact hpos
    · rw [hbe]; exact hval
    · rw [hbe]

theorem scalar_to_bytes_inj (s1 s2 : Scalar) :
    scalar_to_bytes s1 = scalar_to_bytes s2 ↔ s1 = s2 := by
  constructor
  · intro h
    rw [scalar_to_bytes, scalar_to_bytes] at h
    have hv := beBytes_inj 32 (lt_trans (ZMod.val_lt s1) q_lt_pow)
      (lt_trans (ZMod.val_lt s2) q_lt_pow) h
    rw [← ZMod.natCast_zmod_val s1, ← ZMod.natCast_zmod_val s2, hv]
  · intro h
    rw [h]

theorem point_to_bytes_inj (P1 P2 : Point) :
    point_to_bytes P1 = point_to_bytes P2 ↔ P1 = P2 := by
  constructor
  · intro h
    by_cases h1 : P1 = 0 <;> by_cases h2 : P2 = 0
    · rw [h1, h2]
    · rw [point_to_bytes, point_to_bytes, if_pos h1, if_neg h2] at h
      have hh := congrArg (fun l => l.getD 0 0) h
      simp only [List.getD_cons_zero] at hh
      rw [show (List.replicate 33 (0 : ℕ)).getD 0 0 = 0 from rfl] at hh
      exact absurd hh (by omega)
    · rw [point_to_bytes, point_to_bytes, if_neg h1, if_pos h2] at h
      have hh := congrArg (fun l => l.getD 0 0) h
      simp only [List.getD_cons_zero] at hh
      rw [show (List.replicate 33 (0 : ℕ)).getD 0 0 = 0 from rfl] at hh
      exact absurd hh (by omega)
    · rw [point_to_bytes, point_to_bytes, if_neg h1, if_neg h2] at h
      have htail := congrArg List.tail h
      simp only [List.tail_cons] at htail
      have hv := beBytes_inj 32 (lt_trans (ZMod.val_lt P1) q_lt_pow)
        (lt_trans (ZMod.val_lt P2) q_lt_pow) htail
      rw [← ZMod.natCast_zmod_val P1, ← ZMod.natCast_zmod_val P2, hv]
  · intro h
    rw [h]

/-- C8.  Corrected form.  Decoding the 32-byte big-endian encoding of a
NONZERO scalar yields the scalar again (the zero scalar is rejected by
SecretKey::from_be_bytes, see the counterexample); decoding the 33-byte
encoding of a NON-IDENTITY point yields the point again, while the
identity encoding is rejected rather than decoded; and both encodings are
canonical: byte-equal exactly for equal values. -/
theorem C8_roundtrip (s : Scalar) (P : Point) (hs : s ≠ 0) (hP : P ≠ 0) :
    convert_vec_to_scalar (scalar_to_bytes s) = some s ∧
    convert_vec_to_point (point_to_bytes P) = some P ∧
    convert_vec_to_point (point_to_bytes 0) = none ∧
    (∀ s1 s2 : Scalar, scalar_to_bytes s1 = scalar_to_bytes s2 ↔ s1 = s2) ∧
    (∀ P1 P2 : Point, point_to_bytes P1 = point_to_bytes P2 ↔ P1 = P2) := by
  refine ⟨scalar_roundtrip s hs, point_roundtrip P hP, ?_, scalar_to_bytes_inj,
    point_to_bytes_inj⟩
  decide

/-- C8.  Witness: the scalar 1 and the point 2G round-trip through their
byte encodings. -/
theorem C8_roundtrip_witness :
    convert_vec_to_scalar (scalar_to_bytes 1) = some 1 ∧
    convert_vec_to_point (point_to_bytes 2) = some 2 ∧
    convert_vec_to_point (point_to_bytes 0) = none ∧
    (∀ s1 s2 : Scalar, scalar_to_bytes s1 = scalar_to_bytes s2 ↔ s1 = s2) ∧
    (∀ P1 P2 : Point, point_to_bytes P1 = point_to_bytes P2 ↔ P1 = P2) :=
  C8_roundtrip 1 2 (by decide) (by decide)

/-- C8.  Counterexample to the claim as stated: the claim quantifies over
every scalar, but decoding the encoding of the zero scalar fails
(SecretKey::from_be_bytes only accepts nonzero scalars), so the
round-trip does not yield the scalar back. -/
theorem C8_roundtrip_counterexample :
    convert_vec_to_scalar (scalar_to_bytes 0) ≠ some 0 := by
  decide

theorem allowedTransition_mono {a b : VotingPhase} (h : allowedTransition a b) :
    phaseIdx a ≤ phaseIdx b := by
  rcases h with rfl | ⟨rfl, rfl⟩ | ⟨rfl, rfl⟩ | ⟨rfl, rfl⟩ | ⟨h1, rfl⟩
  · exact le_refl _
  · decide
  · decide
  · decide
  · rcases h1 with rfl | rfl | rfl <;> decide

theorem register_ok {sha : Bytes → Bytes} {hashS : Point → Scalar}
    {st : VotingState} {sender : Addr} {now deposit : ℕ} {msg : RegisterMessage}
    {t : VotingState} {ts : List Transfer}
    (h : register sha hashS st sender now deposit msg = Except.ok (t, ts)) :
    st.voting_phase = .Registration ∧
    (t.voting_phase = .Registration ∨ t.voting_phase = .Commit) ∧
    t.voting_result = st.voting_result := by
  unfold register at h
  cases hcv : convert_vec_to_point msg.voting_key with
  | none =>
    simp only [hcv] at h
    split_ifs at h <;> simp_all
  | some p =>
    simp only [hcv] at h
    split_ifs at h with h1 h2 h3 h4 h5 h6 <;> try simp_all
    all_goals obtain ⟨ht, -⟩ := h
    all_goals subst ht
    all_goals first
      | exact ⟨Or.inr rfl, rfl⟩
      | exact ⟨Or.inl rfl, rfl⟩

theorem commit_ok {st : VotingState} {sender : Addr} {now : ℕ} {msg : CommitMessage}
    {t : VotingState} {ts : List Transfer}
    (h : commit st sender now msg = Except.ok (t, ts)) :
    st.voting_phase = .Commit ∧
    (t.voting_phase = .Commit ∨ t.voting_phase = .Vote) ∧
    t.voting_result = st.voting_result := by
  unfold commit at h
  cases hlk : lookupVoter st.voters sender with
  | none => simp only [hlk] at h; split_ifs at h <;> simp_all
  | some v =>
    simp only [hlk] at h
    cases hsk : storedKeys st.voters with
    | none => simp only [hsk] at h; split_ifs at h <;> simp_all
    | some keys =>
      simp only [hsk] at h
      cases hov : convert_vec_to_point v.voting_key with
      | none => simp only [hov] at h; split_ifs at h <;> simp_all
      | some own =>
        simp only [hov] at h
        cases hck : compute_reconstructed_key keys own with
        | none => simp only [hck] at h; split_ifs at h <;> simp_all
        | some derived =>
          simp only [hck] at h
          split_ifs at h with h1 h2 h3 h4 h5 <;> try simp_all
          all_goals obtain ⟨ht, -⟩ := h
          all_goals subst ht
          all_goals first
            | exact ⟨Or.inr rfl, rfl⟩
            | exact ⟨Or.inl rfl, rfl⟩

theorem vote_ok {sha : Bytes → Bytes} {hashS : Point → Scalar}
    {st : VotingState} {sender : Addr} {now : ℕ} {msg : VoteMessage}
    {t : VotingState} {ts : List Transfer}
    (h : vote sha hashS st sender now msg = Except.ok (t, ts)) :
    st.voting_phase = .Vote ∧
    (t.voting_phase = .Vote ∨ t.voting_phase = .Result) ∧
    t.voting_result = st.voting_result := by
  unfold vote at h
  cases hlk : lookupVoter st.voters sender with
  | none => simp only [hlk] at h; split_ifs at h <;> simp_all
  | some v =>
    simp only [hlk] at h
    cases hrk : convert_vec_to_point v.reconstructed_key with
    | none => simp only [hrk] at h; split_ifs at h <;> simp_all
    | some rk =>
      simp only [hrk] at h
      cases hvp : convert_vec_to_point msg.vote with
      | none => simp only [hvp] at h; split_ifs at h <;> simp_all
      | some votePoint =>
        simp only [hvp] at h
        split_ifs at h with h1 h2 h3 h4 h5 <;> try simp_all
        all_goals obtain ⟨ht, -⟩ := h
        all_goals subst ht
        all_goals first
          | exact ⟨Or.inr rfl, rfl⟩
          | exact ⟨Or.inl rfl, rfl⟩

theorem mapM_some_length {α β : Type} (f : α → Option β) :
    ∀ (l : List α) (res : List β), l.mapM f = some res → res.length = l.length := by
  intro l
  induction l with
  | nil =>
    intro res h
    rw [List.mapM_nil] at h
    simp at h
    subst h
    rfl
  | cons a as ih =>
    intro res h
    rw [List.mapM_cons] at h
    cases hfa : f a with
    | none => rw [hfa] at h; simp at h
    | some b =>
      rw [hfa] at h
      cases has : as.mapM f with
      | none => rw [has] at h; simp at h
      | some bs =>
        rw [has] at h
        simp at h
        subst h
        rw [List.length_cons, List.length_cons, ih bs has]

theorem result_ok {st : VotingState} {t : VotingState} {ts : List Transfer}
    (h : result st = Except.ok (t, ts)) :
    st.voting_phase = .Result ∧ t.voting_phase = .Result ∧
    t.voters = st.voters ∧ t.config = st.config ∧
    t.voting_result.1 + t.voting_result.2 = (st.voters.length : ℤ) := by
  unfold result at h
  by_cases h1 : st.voting_phase ≠ .Result
  · rw [if_pos h1] at h; simp at h
  rw [if_neg h1] at h
  cases hm : st.voters.mapM (fun p => convert_vec_to_point p.2.vote) with
  | none => simp only [hm] at h; simp at h
  | some votes =>
    simp only [hm] at h
    cases htr : tally_result votes with
    | none => simp only [htr] at h; simp at h
    | some yn =>
      simp only [htr] at h
      rw [Except.ok.injEq, Prod.mk.injEq] at h
      obtain ⟨ht, _⟩ := h
      subst ht
      refine ⟨not_not.mp h1, not_not.mp h1, rfl, rfl, ?_⟩
      rw [tally_result] at htr
      cases hbf : brute_force_tally votes with
      | none => rw [hbf] at htr; simp at htr
      | some yes =>
        rw [hbf, Option.map_some', Option.some.injEq] at htr
        have hlen : votes.length = st.voters.length :=
          mapM_some_length _ st.voters votes hm
        rw [← htr]
        simp only []
        rw [hlen]
        ring

theorem change_phase_ok {st : VotingState} {sender : Addr} {now : ℕ}
    {t : VotingState} {ts : List Transfer}
    (h : change_phase st sender now = Except.ok (t, ts)) :
    t.voting_result = st.voting_result ∧ t.voters = st.voters ∧
    t.config = st.config ∧
    allowedTransition st.voting_phase t.voting_phase := by
  unfold change_phase at h
  cases hph : st.voting_phase with
  | Registration =>
    simp only [hph] at h
    split_ifs at h with h1 h2 <;>
      (rw [Except.ok.injEq, Prod.mk.injEq] at h; obtain ⟨ht, -⟩ := h; subst ht)
    · exact ⟨rfl, rfl, rfl, Or.inr (Or.inl ⟨rfl, rfl⟩)⟩
    · exact ⟨rfl, rfl, rfl, Or.inr (Or.inr (Or.inr (Or.inr ⟨Or.inl rfl, rfl⟩)))⟩
    · exact ⟨rfl, rfl, rfl, Or.inl hph.symm⟩
  | Commit =>
    simp only [hph] at h
    split_ifs at h with h1 h2 <;>
      (rw [Except.ok.injEq, Prod.mk.injEq] at h; obtain ⟨ht, -⟩ := h; subst ht)
    · exact ⟨rfl, rfl, rfl, Or.inr (Or.inr (Or.inl ⟨rfl, rfl⟩))⟩
    · exact ⟨rfl, rfl, rfl,
        Or.inr (Or.inr (Or.inr (Or.inr ⟨Or.inr (Or.inl rfl), rfl⟩)))⟩
    · exact ⟨rfl, rfl, rfl, Or.inl hph.symm⟩
  | Vote =>
    simp only [hph] at h
    split_ifs at h with h1 h2 <;>
      (rw [Except.ok.injEq, Prod.mk.injEq] at h; obtain ⟨ht, -⟩ := h; subst ht)
    · exact ⟨rfl, rfl, rfl, Or.inr (Or.inr (Or.inr (Or.inl ⟨rfl, rfl⟩)))⟩
    · exact ⟨rfl, rfl, rfl,
        Or.inr (Or.inr (Or.inr (Or.inr ⟨Or.inr (Or.inr rfl), rfl⟩)))⟩
    · exact ⟨rfl, rfl, rfl, Or.inl hph.symm⟩
  | Result =>
    simp only [hph] at h
    rw [Except.ok.injEq, Prod.mk.injEq] at h
    obtain ⟨ht, -⟩ := h
    subst ht
    exact ⟨rfl, rfl, rfl, Or.inl hph.symm⟩
  | Abort =>
    simp only [hph] at h
    rw [Except.ok.injEq, Prod.mk.injEq] at h
    obtain ⟨ht, -⟩ := h
    subst ht
    exact ⟨rfl, rfl, rfl, Or.inl hph.symm⟩

theorem setup_ok {now : ℕ} {cfg : VoteConfig} {st : VotingState}
    (h : setup now cfg = Except.ok st) :
    st.voting_phase = .Registration ∧ st.voting_result = (-1, -1) ∧
    st.voters = [] := by
  unfold setup at h
  split_ifs at h <;> try simp_all
  subst h
  exact ⟨rfl, rfl, rfl⟩

/-- C6.  For every successful entry-point invocation (register, commit,
vote, result, change_phase), the phase after the invocation is never
earlier than before: only the transitions Registration to Commit, Commit
to Vote, Vote to Result and Registration/Commit/Vote to Abort are ever
taken, Result and Abort are never left, and the phase index never
decreases.  (A failed invocation leaves the state unchanged under the
host transactional model, which the Except embedding reflects by
returning no post-state.) -/
theorem C6_phase_transitions (sha : Bytes → Bytes) (hashS : Point → Scalar)
    {st t : VotingState} (h : Step sha hashS st t) :
    allowedTransition st.voting_phase t.voting_phase ∧
    phaseIdx st.voting_phase ≤ phaseIdx t.voting_phase := by
  have hallow : allowedTransition st.voting_phase t.voting_phase := by
    cases h with
    | register h =>
      obtain ⟨h1, h2, -⟩ := register_ok h
      rcases h2 with h2 | h2
      · exact Or.inl (by rw [h1, h2])
      · exact Or.inr (Or.inl ⟨h1, h2⟩)
    | commit h =>
      obtain ⟨h1, h2, -⟩ := commit_ok h
      rcases h2 with h2 | h2
      · exact Or.inl (by rw [h1, h2])
      · exact Or.inr (Or.inr (Or.inl ⟨h1, h2⟩))
    | vote h =>
      obtain ⟨h1, h2, -⟩ := vote_ok h
      rcases h2 with h2 | h2
      · exact Or.inl (by rw [h1, h2])
      · exact Or.inr (Or.inr (Or.inr (Or.inl ⟨h1, h2⟩)))
    | result h =>
      obtain ⟨h1, h2, -, -, -⟩ := result_ok h
      exact Or.inl (by rw [h1, h2])
    | change_phase h =>
      exact (change_phase_ok h).2.2.2
  exact ⟨hallow, allowedTransition_mono hallow⟩

/-- C7.  Corrected form.  In every reachable state whose phase is not
Result the stored voting_result is (-1, -1); in every reachable state
with phase Result the stored voting_result is either still (-1, -1) (the
phase has been entered but the result entry point has not yet run — this
is where the original claim fails, see the counterexample) or satisfies
yes + no = number of voters. -/
theorem C7_tally_invariant (sha : Bytes → Bytes) (hashS : Point → Scalar)
    {st : VotingState} (h : Reachable sha hashS st) :
    (st.voting_phase ≠ .Result → st.voting_result = (-1, -1)) ∧
    (st.voting_phase = .Result → st.voting_result = (-1, -1) ∨
      st.voting_result.1 + st.voting_result.2 = (st.voters.length : ℤ)) := by
  induction h with
  | setup hs =>
    obtain ⟨h1, h2, -⟩ := setup_ok hs
    refine ⟨fun _ => h2, fun hr => ?_⟩
    rw [h1] at hr
    exact absurd hr (by decide)
  | step hre hstep ih =>
    cases hstep with
    | register hop =>
      obtain ⟨h1, h2, h3⟩ := register_ok hop
      refine ⟨fun _ => by rw [h3]; exact ih.1 (by rw [h1]; decide), fun hres => ?_⟩
      rcases h2 with h2 | h2 <;> (rw [h2] at hres; exact absurd hres (by decide))
    | commit hop =>
      obtain ⟨h1, h2, h3⟩ := commit_ok hop
      refine ⟨fun _ => by rw [h3]; exact ih.1 (by rw [h1]; decide), fun hres => ?_⟩
      rcases h2 with h2 | h2 <;> (rw [h2] at hres; exact absurd hres (by decide))
    | vote hop =>
      obtain ⟨h1, h2, h3⟩ := vote_ok hop
      have hstres := ih.1 (by rw [h1]; decide)
      exact ⟨fun _ => by rw [h3]; exact hstres,
             fun _ => Or.inl (by rw [h3]; exact hstres)⟩
    | result hop =>
      obtain ⟨h1, h2, h3, -, h5⟩ := result_ok hop
      refine ⟨fun hne => absurd h2 hne, fun _ => Or.inr ?_⟩
      rw [h3]
      exact h5
    | change_phase hop =>
      obtain ⟨h3, hv, -, hallow⟩ := change_phase_ok hop
      constructor
      · intro hne
        rw [h3]
        apply ih.1
        intro hstres
        apply hne
        rcases hallow with he | ⟨ha, -⟩ | ⟨ha, -⟩ | ⟨ha, -⟩ | ⟨ha, -⟩
        · rw [← he]; exact hstres
        · rw [ha] at hstres; exact absurd hstres (by decide)
        · rw [ha] at hstres; exact absurd hstres (by decide)
        · rw [ha] at hstres; exact absurd hstres (by decide)
        · rcases ha with ha | ha | ha <;>
            (rw [ha] at hstres; exact absurd hstres (by decide))
      · intro hres
        rcases hallow with he | ⟨ha, hb⟩ | ⟨ha, hb⟩ | ⟨ha, hb⟩ | ⟨ha, hb⟩
        · rcases ih.2 (by rw [he]; exact hres) with hi | hi
          · exact Or.inl (by rw [h3]; exact hi)
          · exact Or.inr (by rw [h3, hv]; exact hi)
        · rw [hb] at hres; exact absurd hres (by decide)
        · rw [hb] at hres; exact absurd hres (by decide)
        · exact Or.inl (by rw [h3]; exact ih.1 (by rw [ha]; decide))
        · rw [hb] at hres; exact absurd hres (by decide)

theorem setup_s0 : setup 1 cfg1 = Except.ok s0 := by decide

theorem step_s0_s1 : register sha0 hashS0 s0 5 1 0 regMsg1 = Except.ok (s1, []) := by
  decide

theorem step_s1_s2 : commit s1 5 2 cmtMsg1 = Except.ok (s2, []) := by decide

theorem step_s2_s3 : vote sha0 hashS0 s2 5 3 voteMsg1 = Except.ok (s3, [(5, 0)]) := by
  decide

theorem reach_s2 : Reachable sha0 hashS0 s2 :=
  Reachable.step
    (Reachable.step (Reachable.setup setup_s0) (Step.register step_s0_s1))
    (Step.commit step_s1_s2)

theorem reach_s3 : Reachable sha0 hashS0 s3 :=
  Reachable.step reach_s2 (Step.vote step_s2_s3)

/-- C7.  Counterexample to the claim as stated: a reachable state whose
phase is Result (entered by the auto-advance at the end of vote) but
whose stored voting_result is still (-1, -1), so yes + no is -2 and not
the number of voters. -/
theorem C7_tally_counterexample :
    Reachable sha0 hashS0 s3 ∧ s3.voting_phase = .Result ∧
    ¬ (s3.voting_result.1 + s3.voting_result.2 = (s3.voters.length : ℤ)) :=
  ⟨reach_s3, rfl, by decide⟩

/-- C6.  Witness: a concrete no-op change_phase invocation on the initial
state of the concrete run (before the registration timeout) is a step,
and its phases satisfy the transition relation and the index bound. -/
theorem C6_phase_transitions_witness :
    allowedTransition s0.voting_phase s0.voting_phase ∧
    phaseIdx s0.voting_phase ≤ phaseIdx s0.voting_phase :=
  C6_phase_transitions sha0 hashS0
    (@Step.change_phase sha0 hashS0 s0 5 2 s0 [] (by decide))

/-- C9.  The vote entry point never compares the submitted vote point
with the ciphertext point y carried inside the 1-of-2 proof: in the
reachable Vote-phase state s2, the message voteMsg1 carries a proof that
verifies under the stored reconstructed key and a vote whose hash matches
the stored commitment, yet whose vote point 5G differs from the proof
field y = -G; the invocation succeeds and stores that vote. -/
theorem C9_vote_ignores_proof_point :
    Reachable sha0 hashS0 s2 ∧ s2.voting_phase = .Vote ∧
    lookupVoter s2.voters 5 = some voter2 ∧
    convert_vec_to_point voter2.reconstructed_key = some (-1) ∧
    verify_one_in_two_zkp hashS0 voteMsg1.vote_zkp (-1) = true ∧
    check_commitment sha0 5 voter2.commitment = true ∧
    convert_vec_to_point voteMsg1.vote = some 5 ∧
    (5 : Point) ≠ voteMsg1.vote_zkp.y ∧
    vote sha0 hashS0 s2 5 3 voteMsg1 = Except.ok (s3, [(5, 0)]) ∧
    lookupVoter s3.voters 5 = some voter3 ∧
    voter3.vote = voteMsg1.vote :=
  ⟨reach_s2, rfl, by decide, by decide, by decide, by decide, by decide,
   by decide, step_s2_s3, by decide, by decide⟩

theorem countTo_append (l1 l2 : List Transfer) (a : Addr) :
    countTo (l1 ++ l2) a = countTo l1 a + countTo l2 a := by
  rw [countTo, countTo, countTo, List.filter_append, List.length_append]

theorem length_filter_eq_of_nodup {l : List Addr} (hnd : l.Nodup) (a : Addr) :
    (l.filter (fun x => decide (x = a))).length = if a ∈ l then 1 else 0 := by
  induction l with
  | nil => simp
  | cons x rest ih =>
    obtain ⟨hx, hrest⟩ := List.nodup_cons.mp hnd
    rw [List.filter_cons]
    by_cases hxa : x = a
    · subst hxa
      have hae : rest.filter (fun y => decide (y = x)) = [] := by
        rw [List.filter_eq_nil_iff]
        intro y hy
        simp only [decide_eq_true_eq]
        intro hyx
        exact hx (hyx ▸ hy)
      simp [hae]
    · have hax : ¬ a = x := fun h => hxa h.symm
      simp only [decide_eq_true_eq, hxa, ite_false, if_false]
      rw [ih hrest]
      simp [List.mem_cons, hax]

theorem stalling_honest_partition (st : VotingState) (f : Voter → Bytes)
    (hf : stallField st.voting_phase = some f) :
    (stallingAccounts st).length + (honestAccounts st).length = st.voters.length := by
  rw [stallingAccounts, honestAccounts, hf]
  simp only [List.length_map]
  have hc : st.voters.filter (fun p => decide (f p.2 ≠ []))
      = st.voters.filter (fun p => !decide (f p.2 = [])) := by
    apply List.filter_congr
    intro x _
    exact decide_not
  rw [hc]
  exact (List.length_eq_length_filter_add (fun (p : Addr × Voter) => decide (f p.2 = []))).symm

theorem honestAccounts_nodup (st : VotingState)
    (hnd : (st.voters.map Prod.fst).Nodup) : (honestAccounts st).Nodup := by
  rw [honestAccounts]
  cases stallField st.voting_phase with
  | none => exact List.nodup_nil
  | some f =>
    exact List.Nodup.sublist ((List.filter_sublist st.voters).map Prod.fst) hnd

theorem countTo_map_pair (l : List Addr) (d : ℕ) (a : Addr) :
    countTo (l.map (fun x => (x, d))) a
      = (l.filter (fun x => decide (x = a))).length := by
  induction l with
  | nil => rfl
  | cons x rest ih =>
    rw [List.map_cons]
    simp only [countTo, List.filter_cons] at ih ⊢
    by_cases hx : x = a
    · simp [hx, ih]
    · simp [hx, ih]

theorem refund_deposits_spec (st : VotingState) (sender : Addr) (f : Voter → Bytes)
    (hnd : (st.voters.map Prod.fst).Nodup)
    (hf : stallField st.voting_phase = some f) :
    (∀ e ∈ refund_deposits st sender, e.2 = st.config.deposit) ∧
    (∀ a : Addr, countTo (refund_deposits st sender) a =
      (if a = sender ∧ sender ∉ stallingAccounts st ∧ stallingAccounts st ≠ []
        then 1 else 0) +
      (if st.voting_phase ≠ .Vote ∧ a ∈ honestAccounts st then 1 else 0)) := by
  have hpart := stalling_honest_partition st f hf
  have hcond : (sender ∉ stallingAccounts st ∧
      st.voters.length - (honestAccounts st).length > 0)
      ↔ (sender ∉ stallingAccounts st ∧ stallingAccounts st ≠ []) := by
    constructor
    · rintro ⟨h1, h2⟩
      refine ⟨h1, ?_⟩
      rw [← List.length_pos]
      omega
    · rintro ⟨h1, h2⟩
      refine ⟨h1, ?_⟩
      have := List.length_pos.mpr h2
      omega
  constructor
  · intro e he
    rw [refund_deposits] at he
    simp only [List.mem_append] at he
    rcases he with he | he
    · split_ifs at he
      · simp only [List.mem_singleton] at he
        rw [he]
      · simp at he
    · split_ifs at he
      · rw [List.mem_map] at he
        obtain ⟨x, -, rfl⟩ := he
        rfl
      · simp at he
  · intro a
    rw [refund_deposits, countTo_append]
    have h1 : countTo (if sender ∉ stallingAccounts st ∧
        st.voters.length - (honestAccounts st).length > 0
        then [(sender, st.config.deposit)] else []) a
        = if a = sender ∧ sender ∉ stallingAccounts st ∧ stallingAccounts st ≠ []
          then 1 else 0 := by
      by_cases hc : sender ∉ stallingAccounts st ∧
          st.voters.length - (honestAccounts st).length > 0
      · rw [if_pos hc]
        by_cases ha : a = sender
        · rw [if_pos ⟨ha, hcond.mp hc⟩]
          simp [countTo, ha]
        · rw [if_neg (fun hx => ha hx.1)]
          have has : ¬ sender = a := fun h => ha h.symm
          simp [countTo, has]
      · rw [if_neg hc, if_neg (fun hx => hc (hcond.mpr ⟨hx.2.1, hx.2.2⟩))]
        simp [countTo]
    have h2 : countTo (if st.voting_phase ≠ .Vote
        then (honestAccounts st).map (fun x => (x, st.config.deposit)) else []) a
        = if st.voting_phase ≠ .Vote ∧ a ∈ honestAccounts st then 1 else 0 := by
      by_cases hv : st.voting_phase ≠ .Vote
      · rw [if_pos hv]
        rw [countTo_map_pair, length_filter_eq_of_nodup (honestAccounts_nodup st hnd) a]
        by_cases hm : a ∈ honestAccounts st
        · rw [if_pos hm, if_pos ⟨hv, hm⟩]
        · rw [if_neg hm, if_neg (fun hx => hm hx.2)]
      · rw [if_neg hv, if_neg (fun hx => hv hx.1)]
        simp [countTo]
    rw [h1, h2]

/-- C2.  For every state with duplicate-free voter addresses whose
change_phase invocation transitions from a non-Abort phase to Abort,
refund_deposits emits exactly one deposit-sized transfer to the caller if
and only if the caller is not a stalling voter and at least one stalling
voter exists (the reward); additionally, when the aborted phase is
Registration or Commit (i.e. not Vote) it emits one deposit to each
honest voter; stalling voters receive no transfer, and on an abort from
Vote no honest-voter refunds are emitted.  All emitted transfers carry
exactly one deposit.  The count identity below states all of this at
once: for every account, the number of transfers it receives is the
reward indicator plus the honest-refund indicator. -/
theorem C2_refund_on_abort (st : VotingState) (sender : Addr) (now : ℕ)
    (t : VotingState) (ts : List Transfer)
    (hnd : (st.voters.map Prod.fst).Nodup)
    (h : change_phase st sender now = Except.ok (t, ts))
    (hnab : st.voting_phase ≠ .Abort)
    (habort : t.voting_phase = .Abort) :
    (∀ e ∈ ts, e.2 = st.config.deposit) ∧
    (∀ a : Addr, countTo ts a =
      (if a = sender ∧ sender ∉ stallingAccounts st ∧ stallingAccounts st ≠ []
        then 1 else 0) +
      (if st.voting_phase ≠ .Vote ∧ a ∈ honestAccounts st then 1 else 0)) := by
  unfold change_phase at h
  cases hph : st.voting_phase with
  | Registration =>
    simp only [hph] at h
    split_ifs at h <;>
      (rw [Except.ok.injEq, Prod.mk.injEq] at h; obtain ⟨ht, hts⟩ := h)
    · rw [← ht] at habort; simp at habort
    · rw [← hts]
      have hspec := refund_deposits_spec st sender (fun v => v.voting_key) hnd
        (by rw [hph]; rfl)
      rw [hph] at hspec
      exact hspec
    · rw [← ht] at habort
      rw [hph] at habort
      exact absurd habort (by decide)
  | Commit =>
    simp only [hph] at h
    split_ifs at h <;>
      (rw [Except.ok.injEq, Prod.mk.injEq] at h; obtain ⟨ht, hts⟩ := h)
    · rw [← ht] at habort; simp at habort
    · rw [← hts]
      have hspec := refund_deposits_spec st sender (fun v => v.reconstructed_key) hnd
        (by rw [hph]; rfl)
      rw [hph] at hspec
      exact hspec
    · rw [← ht] at habort
      rw [hph] at habort
      exact absurd habort (by decide)
  | Vote =>
    simp only [hph] at h
    split_ifs at h <;>
      (rw [Except.ok.injEq, Prod.mk.injEq] at h; obtain ⟨ht, hts⟩ := h)
    · rw [← ht] at habort; simp at habort
    · rw [← hts]
      have hspec := refund_deposits_spec st sender (fun v => v.vote) hnd
        (by rw [hph]; rfl)
      rw [hph] at hspec
      exact hspec
    · rw [← ht] at habort
      rw [hph] at habort
      exact absurd habort (by decide)
  | Result =>
    simp only [hph] at h
    rw [Except.ok.injEq, Prod.mk.injEq] at h
    obtain ⟨ht, -⟩ := h
    rw [← ht, hph] at habort
    exact absurd habort (by decide)
  | Abort => exact absurd hph hnab

/-- C7.  Witness: the invariant instantiated on the concretely reachable
states of the one-voter run, in particular on the Result state s3 where
the tally is still (-1, -1). -/
theorem C7_tally_invariant_witness :
    (s3.voting_phase ≠ .Result → s3.voting_result = (-1, -1)) ∧
    (s3.voting_phase = .Result → s3.voting_result = (-1, -1) ∨
      s3.voting_result.1 + s3.voting_result.2 = (s3.voters.length : ℤ)) :=
  C7_tally_invariant sha0 hashS0 reach_s3

/-- C2.  Witness: aborting sC from the Commit phase after its timeout,
with the committed voter as caller, pays the caller the reward plus their
honest refund (two transfers of one deposit) and pays the stalling voter
nothing. -/
theorem C2_refund_on_abort_witness :
    (∀ e ∈ [((5 : Addr), (100 : ℕ)), (5, 100)], e.2 = sC.config.deposit) ∧
    (∀ a : Addr, countTo [((5 : Addr), (100 : ℕ)), (5, 100)] a =
      (if a = 5 ∧ (5 : Addr) ∉ stallingAccounts sC ∧ stallingAccounts sC ≠ []
        then 1 else 0) +
      (if sC.voting_phase ≠ .Vote ∧ a ∈ honestAccounts sC then 1 else 0)) :=
  C2_refund_on_abort sC 5 25 sCab [(5, 100), (5, 100)] (by decide) (by decide)
    (by decide) (by decide)

theorem lookupVoter_update (voters : List (Addr × Voter)) (a : Addr) (v w : Voter)
    (h : lookupVoter voters a = some v) :
    lookupVoter (updateVoter voters a w) a = some w := by
  induction voters with
  | nil => simp [lookupVoter] at h
  | cons p rest ih =>
    rw [updateVoter, List.map_cons]
    by_cases hp : p.1 = a
    · rw [if_pos hp, lookupVoter,
        List.find?_cons_of_pos _ (by simpa using hp), Option.map_some']
    · rw [if_neg hp, lookupVoter, List.find?_cons_of_neg _ (by simpa using hp)]
      rw [lookupVoter, List.find?_cons_of_neg _ (by simpa using hp)] at h
      exact ih h

/-- C5.  For a commit invocation by a registered sender in the Commit
phase at or before the commit timeout, with nonempty commitment and
reconstructed-key fields, and with the stored keys decoding so that
compute_reconstructed_key yields the canonical derived key: if the
message key differs from the encoding of the derived key the call fails
with InvalidCommitMessage (the Except embedding returns no post-state, so
the sender record is unchanged under the host rollback); if it equals it
the call succeeds and stores both fields in the sender record. -/
theorem C5_commit_key_validation (st : VotingState) (sender : Addr) (now : ℕ)
    (msg : CommitMessage) (v : Voter) (keys : List Point) (own derived : Point)
    (hph : st.voting_phase = .Commit)
    (hlk : lookupVoter st.voters sender = some v)
    (htime : now ≤ st.config.commit_timeout)
    (hcm : msg.commitment ≠ []) (hrk : msg.reconstructed_key ≠ [])
    (hkeys : storedKeys st.voters = some keys)
    (hown : convert_vec_to_point v.voting_key = some own)
    (hder : compute_reconstructed_key keys own = some derived) :
    (msg.reconstructed_key ≠ point_to_bytes derived →
      commit st sender now msg = Except.error CommitError.InvalidCommitMessage) ∧
    (msg.reconstructed_key = point_to_bytes derived →
      ∃ t, commit st sender now msg = Except.ok (t, []) ∧
        lookupVoter t.voters sender = some
          { v with reconstructed_key := msg.reconstructed_key,
                   commitment := msg.commitment }) := by
  unfold commit
  rw [if_neg (not_not_intro hph)]
  simp only [hlk]
  rw [if_neg (not_not_intro htime), if_neg hcm, if_neg hrk]
  simp only [hkeys, hown, hder]
  constructor
  · intro hne
    rw [if_pos hne]
  · intro heq
    rw [if_neg (not_not_intro heq)]
    exact ⟨_, rfl, lookupVoter_update st.voters sender v _ hlk⟩

/-- C5.  Witness: in the reachable Commit-phase state s1, the commit
message with the correctly derived reconstructed key -G succeeds, and any
other key value would be rejected with InvalidCommitMessage. -/
theorem C5_commit_key_validation_witness :
    (cmtMsg1.reconstructed_key ≠ point_to_bytes (-1) →
      commit s1 5 2 cmtMsg1 = Except.error CommitError.InvalidCommitMessage) ∧
    (cmtMsg1.reconstructed_key = point_to_bytes (-1) →
      ∃ t, commit s1 5 2 cmtMsg1 = Except.ok (t, []) ∧
        lookupVoter t.voters 5 = some
          { voter1 with reconstructed_key := cmtMsg1.reconstructed_key,
                        commitment := cmtMsg1.commitment }) :=
  C5_commit_key_validation s1 5 2 cmtMsg1 voter1 [1] 1 (-1) (by decide)
    (by decide) (by decide) (by decide) (by decide) (by decide) (by decide)
    (by decide)

/-- C10.  A registered voter may commit more than once: even when the
sender record already carries a nonempty reconstructed_key and
commitment, a further commit in the Commit phase at or before the
timeout, with nonempty fields and the correctly derived reconstructed
key, succeeds (commit has no duplicate-commit check) and replaces both
stored fields with the new values. -/
theorem C10_recommit_allowed (st : VotingState) (sender : Addr) (now : ℕ)
    (msg : CommitMessage) (v : Voter) (keys : List Point) (own derived : Point)
    (hph : st.voting_phase = .Commit)
    (hlk : lookupVoter st.voters sender = some v)
    (hprev1 : v.reconstructed_key ≠ []) (hprev2 : v.commitment ≠ [])
    (htime : now ≤ st.config.commit_timeout)
    (hcm : msg.commitment ≠ []) (hrk : msg.reconstructed_key ≠ [])
    (hkeys : storedKeys st.voters = some keys)
    (hown : convert_vec_to_point v.voting_key = some own)
    (hder : compute_reconstructed_key keys own = some derived)
    (heq : msg.reconstructed_key = point_to_bytes derived) :
    ∃ t, commit st sender now msg = Except.ok (t, []) ∧
      lookupVoter t.voters sender = some
        { v with reconstructed_key := msg.reconstructed_key,
                 commitment := msg.commitment } := by
  unfold commit
  rw [if_neg (not_not_intro hph)]
  simp only [hlk]
  rw [if_neg (not_not_intro htime), if_neg hcm, if_neg hrk]
  simp only [hkeys, hown, hder]
  rw [if_neg (not_not_intro heq)]
  exact ⟨_, rfl, lookupVoter_update st.voters sender v _ hlk⟩

/-- C10.  Witness: in the Commit-phase state sC the already-committed
voter 5 recommits successfully with the derived key -2G, and the stored
fields are replaced. -/
theorem C10_recommit_allowed_witness :
    ∃ t, commit sC 5 15 cmtMsgB = Except.ok (t, []) ∧
      lookupVoter t.voters 5 = some
        { voter2 with reconstructed_key := cmtMsgB.reconstructed_key,
                      commitment := cmtMsgB.commitment } :=
  C10_recommit_allowed sC 5 15 cmtMsgB voter2 [1, 2] 1 (-2) (by decide)
    (by decide) (by decide) (by decide) (by decide) (by decide) (by decide)
    (by decide) (by decide) (by decide) (by decide)

end OVN
